import Mathlib

/-!
# starwars: the fetch / buffer / flush pipeline

A shallow embedding of `starwars/fetcher.go`.

* The buffering stage (`insert`, `flush`, the `select` loop of `process`) is a
  state-passing translation: one `Fetcher` record in, one out.  The standard
  output stream is carried in that record as the list of lines written so far.
* The fetch stage (`getResponse`, the `for` loop of `fetch`) and the two
  goroutines running together are a step function `step` on a `Sys` record,
  driven by a schedule (a list of `Action`s) that stands for the choices of the
  Go scheduler and of the ticker.
-/

namespace Starwars

/-! ## Constants and data types -/

/-- The constant `bufferSize`. -/
def bufferSize : Nat := 10

/-- The constant `http.StatusOK`. -/
def StatusOK : Nat := 200

/-- The first URL requested by `fetch`. -/
def startURL : String := "https://swapi.dev/api/people/?format=json"

/-- The struct `Person`. -/
structure Person where
  Name : String
  deriving DecidableEq, Repr

/-- The struct `Response`.  `Results` is a slice of pointers; a nil pointer
(what `json.Unmarshal` stores for a JSON `null` entry) is `none`. -/
structure Response where
  Next : String
  Results : List (Option Person)
  deriving DecidableEq, Repr

/-- One call of `insert` as seen from the `select` loop: the name received and
the buffer just before and just after the call.  History only; no code reads it. -/
structure Receipt where
  name : String
  before : List String
  after : List String
  deriving DecidableEq, Repr

/-- The struct `Fetcher` together with the parts of the process state its
methods touch.

* `buffer`: the field `buffer`.
* `stdout`: the lines written to `os.Stdout` so far, oldest first.
* `cancelled`: whether `ctx` has been cancelled (`ctx.Done()` is closed).
* `done`: whether the channel `done` has been closed.
* `started`: whether `Start` has launched the goroutines.
* `received`: history of the items taken from the channel `ch` (see `Receipt`).

The mutex is never locked by the code, the HTTP client is represented by the
outcomes of its requests (see `Transport`), and the unbuffered channel `ch`
holds no state. -/
structure Fetcher where
  buffer : List String
  stdout : List String
  cancelled : Bool
  done : Bool
  started : Bool
  received : List Receipt
  deriving DecidableEq, Repr

/-! ## The buffering stage -/

/-- The function `NewFetcher`: empty buffer, fresh context, open `done`. -/
def NewFetcher : Fetcher :=
  { buffer := [], stdout := [], cancelled := false, done := false,
    started := false, received := [] }

/-- The effect of `Start` on the record: both goroutines now exist. -/
def Start (f : Fetcher) : Fetcher :=
  { f with started := true }

/-- The call `f.cancelf()`: cancelling a context twice is the same as once. -/
def cancelf (f : Fetcher) : Fetcher :=
  { f with cancelled := true }

/-- The line `fmt.Fprintln(os.Stdout, name)` produces. -/
def line (name : String) : String := name ++ "\n"

/-- The call `fmt.Fprintln(os.Stdout, name)`: one more line on the stream. -/
def Fprintln (out : List String) (name : String) : List String :=
  out ++ [line name]

/-- The method `flush`. -/
def flush (f : Fetcher) : Fetcher :=
  if f.buffer.length = 0 then f
  else
    let names := f.buffer
    { f with buffer := [], stdout := names.foldl Fprintln f.stdout }

/-- The method `insert`. -/
def insert (f : Fetcher) (name : String) : Fetcher :=
  if f.buffer.length ≥ bufferSize then flush f
  else { f with buffer := f.buffer ++ [name] }

/-- The three cases of the `select` in `process`. -/
inductive Event where
  | ctxDone
  | recv (name : String)
  | tick
  deriving DecidableEq, Repr

/-- One iteration of the `for` loop of `process`, the `select` having chosen
`e`.  A goroutine that was never started, or that has returned (it returns right
after closing `done`), handles nothing. -/
def processStep (f : Fetcher) (e : Event) : Fetcher :=
  if f.started = false ∨ f.done = true then f
  else
    match e with
    | .ctxDone => { flush f with done := true }
    | .recv name =>
        let g := insert f name
        { g with received := f.received ++ [⟨name, f.buffer, g.buffer⟩] }
    | .tick => flush f

/-- The goroutine `process` run over the sequence of cases its `select` takes. -/
def process (f : Fetcher) (evs : List Event) : Fetcher :=
  evs.foldl processStep f

/-- The method `Stop`: `f.cancelf()`, then `<-f.done`.  While the caller waits,
the buffering goroutine (if there is one) handles `pending` and then, the
context being cancelled, takes its `ctx.Done()` case.  The receive from `done`
succeeds exactly when `done` is closed; `none` is a caller blocked for ever. -/
def Stop (f : Fetcher) (pending : List Event) : Option Fetcher :=
  let g := process (cancelf f) (pending ++ [Event.ctxDone])
  if g.done then some g else none

/-- Successive calls of `Stop`, one per element of `pendings`; `none` as soon as
one of them blocks. -/
def stopAll : Fetcher → List (List Event) → Option Fetcher
  | f, [] => some f
  | f, p :: ps =>
    match Stop f p with
    | some g => stopAll g ps
    | none => none

/-- The names of the `recv` events of a sequence, in order. -/
def itemsOf : List Event → List String
  | [] => []
  | .recv name :: es => name :: itemsOf es
  | _ :: es => itemsOf es

/-- The receipts whose call of `insert` appended the item to the buffer. -/
def appended (log : List Receipt) : List String :=
  (log.filter (fun r => decide (r.after = r.before ++ [r.name]))).map (·.name)

/-- The receipts taken while the buffer did not hold `bufferSize` items. -/
def keptItems (log : List Receipt) : List String :=
  (log.filter (fun r => decide (r.before.length ≠ bufferSize))).map (·.name)

/-! ## The fetch stage and the two goroutines together -/

/-- What reading and decoding the body of a reply gives: `io.ReadAll` fails,
`json.Unmarshal` fails, or the body decodes to `raw`. -/
inductive Body where
  | unreadable
  | malformed
  | decoded (raw : Response)
  deriving DecidableEq, Repr

/-- What happens to one GET request: `http.NewRequest` fails, `f.http.Do`
fails, or a reply with a status code and a body arrives. -/
inductive Transport where
  | badRequest
  | failed
  | replied (status : Nat) (body : Body)
  deriving DecidableEq, Repr

/-- The errors `getResponse` returns, one per `fmt.Errorf`. -/
inductive FetchError where
  | createRequest
  | fetchPersons
  | statusNot200 (code : Nat)
  | readBody
  | unmarshal
  deriving DecidableEq, Repr

/-- The method `getResponse`, the outcome `t` of the request being given. -/
def getResponse (_url : String) (t : Transport) : Except FetchError Response :=
  match t with
  | .badRequest => .error .createRequest
  | .failed => .error .fetchPersons
  | .replied status body =>
    if status ≠ StatusOK then .error (.statusNot200 status)
    else
      match body with
      | .unreadable => .error .readBody
      | .malformed => .error .unmarshal
      | .decoded raw => .ok raw

/-- Where the goroutine `fetch` stands.
* `loop url`: at the `select` of the `for` loop, about to request `url`.
* `emit rest next`: in the `range` loop, `rest` still to be sent on `ch`, the
  cursor of the page being `next`.
* `stopping`: inside the `f.Stop()` of the last page, `cancelf` called, waiting
  on `done`.
* `returned`: the goroutine has returned.
* `panicked`: `res.Name` was evaluated on a nil pointer. -/
inductive FetchPc where
  | loop (url : String)
  | emit (rest : List (Option Person)) (next : String)
  | stopping
  | returned
  | panicked
  deriving DecidableEq, Repr

/-- The running program: the `Fetcher`, the position of the goroutine `fetch`,
the outcomes of the requests still to come, and the URLs requested so far. -/
structure Sys where
  f : Fetcher
  pc : FetchPc
  net : List Transport
  requests : List String
  deriving DecidableEq, Repr

/-- What can happen next: the goroutine `fetch` moves on, the ticker fires, the
goroutine `process` takes its `ctx.Done()` case, or some other caller of `Stop`
calls `cancelf`. -/
inductive Action where
  | fetch
  | tick
  | ctxDone
  | stop
  deriving DecidableEq, Repr

/-- One move of the goroutine `fetch`.  A send on `ch` is a move of both
goroutines: `process` takes its receive case.  A move that cannot be made yet
(no reply so far, no receiver, `done` still open) leaves the state as it is. -/
def fetchStep (s : Sys) : Sys :=
  match s.pc with
  | .loop url =>
    if s.f.cancelled then { s with pc := .returned }
    else
      match s.net with
      | [] => s
      | t :: ts =>
        let s1 := { s with net := ts, requests := s.requests ++ [url] }
        match getResponse url t with
        | .error _ => s1
        | .ok resp =>
          if resp.Results.length = 0 then { s1 with pc := .returned }
          else { s1 with pc := .emit resp.Results resp.Next }
  | .emit (none :: _) _ => { s with pc := .panicked }
  | .emit (some res :: rest) next =>
    if s.f.started = false ∨ s.f.done = true then s
    else { s with f := processStep s.f (.recv res.Name), pc := .emit rest next }
  | .emit [] next =>
    if next = "" then { s with f := cancelf s.f, pc := .stopping }
    else { s with pc := .loop next }
  | .stopping => if s.f.done then { s with pc := .returned } else s
  | .returned => s
  | .panicked => s

/-- One move of the program.  After a panic nothing moves any more. -/
def step (s : Sys) (a : Action) : Sys :=
  if s.pc = .panicked then s
  else
    match a with
    | .fetch => fetchStep s
    | .tick => { s with f := processStep s.f .tick }
    | .ctxDone => if s.f.cancelled then { s with f := processStep s.f .ctxDone } else s
    | .stop => { s with f := cancelf s.f }

/-- The program run along a schedule. -/
def run (s : Sys) (sch : List Action) : Sys :=
  sch.foldl step s

/-- The program `main` sets up: `NewFetcher()` then `Start()`, the requests
having the outcomes `net`. -/
def system (net : List Transport) : Sys :=
  { f := Start NewFetcher, pc := .loop startURL, net := net, requests := [] }

/-- A successful reply carrying `r`. -/
def success (r : Response) : Transport :=
  .replied StatusOK (.decoded r)

/-- A decoded page all of whose entries are persons. -/
def page (names : List String) (next : String) : Response :=
  { Next := next, Results := names.map (fun n => some (Person.mk n)) }

/-- The replies of a server holding the pages `pages`, each with a cursor, and
then a last page with the empty cursor. -/
def serve (pages : List (List String × String)) (last : List String) : List Transport :=
  pages.map (fun p => success (page p.1 p.2)) ++ [success (page last "")]

/-- The names of a list of pages, page after page. -/
def allNames : List (List String × String) → List String
  | [] => []
  | p :: ps => p.1 ++ allNames ps

/-- An upper bound on the moves the fetch stage makes for one reply: the
request, one send per entry of the page, and the end of the `range` loop. -/
def replyCost : Transport → Nat
  | .replied _ (.decoded r) => r.Results.length + 2
  | _ => 1

/-- The moves the fetch stage makes for the replies still to come. -/
def netCost : List Transport → Nat
  | [] => 0
  | t :: ts => replyCost t + netCost ts

/-- The moves the fetch stage still has to make before it has called `Stop`. -/
def cost (s : Sys) : Nat :=
  match s.pc with
  | .loop _ => netCost s.net
  | .emit rest _ => rest.length + 1 + netCost s.net
  | _ => 0

/-- The schedule in which the ticker fires before each of `n` moves of the fetch
stage. -/
def ticked : Nat → List Action
  | 0 => []
  | n + 1 => .tick :: .fetch :: ticked n

/-- Ten names, as many as the buffer holds (the first page of the people
resource). -/
def tenNames : List String :=
  ["Luke Skywalker", "C-3PO", "R2-D2", "Darth Vader", "Leia Organa", "Owen Lars",
   "Beru Whitesun lars", "R5-D4", "Biggs Darklighter", "Obi-Wan Kenobi"]

/-- A started `Fetcher` whose buffer is full. -/
def fullFetcher : Fetcher :=
  { Start NewFetcher with buffer := tenNames }

/-- The invariant of the buffering stage.
* `bound`: the buffer never holds more than `bufferSize` items.
* `written`: what has been printed, followed by what is buffered, is what was
  appended to the buffer.
* `kept`: an item was appended exactly when the buffer was not full on receipt.
* `drained`: once `done` is closed the buffer is empty. -/
structure Inv (f : Fetcher) : Prop where
  bound : f.buffer.length ≤ bufferSize
  written : f.stdout ++ f.buffer.map line = (appended f.received).map line
  kept : appended f.received = keptItems f.received
  drained : f.done = true → f.buffer = []

/-- Where the items of a run over the pages of `serve pages last` are: the
names received so far, then the names still to be sent from the page in hand,
then the names of the pages not yet requested, make up `total`.  The context is
cancelled only once the last page has been sent. -/
def Feeding (last total : List String) (s : Sys) : Prop :=
  match s.pc with
  | .loop _ => s.f.cancelled = false ∧ s.f.done = false ∧
      ∃ ps : List (List String × String), (∀ p ∈ ps, p.1 ≠ [] ∧ p.2 ≠ "") ∧
        s.net = serve ps last ∧
        s.f.received.map (·.name) ++ (allNames ps ++ last) = total
  | .emit rest next => s.f.cancelled = false ∧ s.f.done = false ∧
      ∃ ns : List String, rest = ns.map (fun n => some (Person.mk n)) ∧
        ((next ≠ "" ∧ ∃ ps : List (List String × String),
            (∀ p ∈ ps, p.1 ≠ [] ∧ p.2 ≠ "") ∧ s.net = serve ps last ∧
            s.f.received.map (·.name) ++ (ns ++ (allNames ps ++ last)) = total) ∨
         (next = "" ∧ s.net = [] ∧ s.f.received.map (·.name) ++ ns = total))
  | .stopping => s.f.cancelled = true ∧ s.f.received.map (·.name) = total
  | .returned => s.f.cancelled = true ∧ s.f.received.map (·.name) = total
  | .panicked => False

/-- The invariant of a run over the pages of `serve pages last` in which nobody
but the fetch stage calls `Stop`. -/
structure GInv (last total : List String) (s : Sys) : Prop where
  inv : Inv s.f
  started : s.f.started = true
  feeding : Feeding last total s

/-! ## Lemmas on the buffering stage -/

theorem foldl_Fprintln (names out : List String) :
    names.foldl Fprintln out = out ++ names.map line := by
  induction names generalizing out with
  | nil => simp
  | cons a t ih => simp [List.foldl, ih, Fprintln]

theorem flush_eq (f : Fetcher) :
    flush f = { f with buffer := [], stdout := f.stdout ++ f.buffer.map line } := by
  unfold flush
  split
  · rename_i h
    have hb : f.buffer = [] := List.length_eq_zero.mp h
    cases f
    simp_all
  · simp [foldl_Fprintln]

theorem insert_full (f : Fetcher) (name : String) (h : bufferSize ≤ f.buffer.length) :
    insert f name = { f with buffer := [], stdout := f.stdout ++ f.buffer.map line } := by
  unfold insert
  rw [if_pos h, flush_eq]

theorem insert_room (f : Fetcher) (name : String) (h : f.buffer.length < bufferSize) :
    insert f name = { f with buffer := f.buffer ++ [name] } := by
  unfold insert
  rw [if_neg (by omega)]

theorem appended_snoc (log : List Receipt) (r : Receipt) :
    appended (log ++ [r]) =
      if r.after = r.before ++ [r.name] then appended log ++ [r.name] else appended log := by
  unfold appended
  by_cases h : r.after = r.before ++ [r.name] <;> simp [List.filter_append, List.filter_cons, h]

theorem keptItems_snoc (log : List Receipt) (r : Receipt) :
    keptItems (log ++ [r]) =
      if r.before.length ≠ bufferSize then keptItems log ++ [r.name] else keptItems log := by
  unfold keptItems
  by_cases h : r.before.length = bufferSize <;> simp [List.filter_append, List.filter_cons, h]

theorem Inv_init : Inv (Start NewFetcher) :=
  ⟨by simp [Start, NewFetcher], by simp [Start, NewFetcher, appended],
   by simp [Start, NewFetcher, appended, keptItems], by simp [Start, NewFetcher]⟩

theorem Inv_processStep (f : Fetcher) (e : Event) (h : Inv f) : Inv (processStep f e) := by
  unfold processStep
  split
  · exact h
  · rename_i hg
    have hd : f.done = false := by
      cases hdd : f.done <;> simp_all
    cases e with
    | ctxDone =>
      rw [flush_eq]
      exact ⟨by simp, by simpa using h.written, h.kept, by simp⟩
    | tick =>
      rw [flush_eq]
      exact ⟨by simp, by simpa using h.written, h.kept, by simp⟩
    | recv name =>
      by_cases hfull : bufferSize ≤ f.buffer.length
      · have hlen : f.buffer.length = bufferSize := le_antisymm h.bound hfull
        simp only [insert_full f name hfull]
        refine ⟨by simp, ?_, ?_, by simp⟩
        · simp only [appended_snoc]
          simpa using h.written
        · simp only [appended_snoc, keptItems_snoc]
          simpa [hlen] using h.kept
      · have hlt : f.buffer.length < bufferSize := by omega
        simp only [insert_room f name hlt]
        refine ⟨?_, ?_, ?_, ?_⟩
        · simp only [List.length_append, List.length_singleton]; omega
        · simp only [appended_snoc, if_true, List.map_append, List.map_cons, List.map_nil]
          rw [← h.written, List.append_assoc]
        · simp only [appended_snoc, keptItems_snoc, if_true]
          rw [if_pos (by omega), h.kept]
        · simp [hd]

theorem Inv_process (f : Fetcher) (evs : List Event) (h : Inv f) : Inv (process f evs) := by
  unfold process
  induction evs generalizing f with
  | nil => exact h
  | cons e es ih => exact ih _ (Inv_processStep f e h)

theorem process_append (f : Fetcher) (xs ys : List Event) :
    process f (xs ++ ys) = process (process f xs) ys := by
  simp [process, List.foldl_append]

theorem processStep_returned (f : Fetcher) (e : Event) (h : f.done = true) :
    processStep f e = f := by
  simp [processStep, h]

theorem process_returned (f : Fetcher) (evs : List Event) (h : f.done = true) :
    process f evs = f := by
  unfold process
  induction evs with
  | nil => rfl
  | cons e es ih => simp only [List.foldl_cons, processStep_returned f e h, ih]

theorem processStep_flags (f : Fetcher) (e : Event) :
    (processStep f e).started = f.started ∧ (processStep f e).cancelled = f.cancelled := by
  unfold processStep
  split
  · exact ⟨rfl, rfl⟩
  · cases e with
    | ctxDone => simp [flush_eq]
    | tick => simp [flush_eq]
    | recv name =>
      by_cases hfull : bufferSize ≤ f.buffer.length
      · simp [insert_full f name hfull]
      · simp [insert_room f name (by omega)]

theorem process_flags (f : Fetcher) (evs : List Event) :
    (process f evs).started = f.started ∧ (process f evs).cancelled = f.cancelled := by
  unfold process
  induction evs generalizing f with
  | nil => exact ⟨rfl, rfl⟩
  | cons e es ih =>
    have h1 := processStep_flags f e
    have h2 := ih (processStep f e)
    simp only [List.foldl_cons]
    exact ⟨h2.1.trans h1.1, h2.2.trans h1.2⟩

theorem processStep_ctxDone_done (f : Fetcher) (h : f.started = true) :
    (processStep f Event.ctxDone).done = true := by
  unfold processStep
  by_cases hd : f.done = true
  · simp [hd]
  · simp [h, hd, flush_eq]

/-- Without a cancellation event a started, running stage takes every item
offered to it and does not return. -/
theorem process_running (f : Fetcher) (evs : List Event) (hs : f.started = true)
    (hd : f.done = false) (hc : Event.ctxDone ∉ evs) :
    (process f evs).done = false ∧
      (process f evs).received.map (·.name) = f.received.map (·.name) ++ itemsOf evs := by
  unfold process
  induction evs generalizing f with
  | nil => simp [itemsOf, hd]
  | cons e es ih =>
    have hc2 : Event.ctxDone ∉ es := fun h => hc (List.mem_cons_of_mem _ h)
    have hfl := processStep_flags f e
    cases e with
    | ctxDone => exact absurd (List.mem_cons_self _ _) hc
    | tick =>
      have hstep : processStep f Event.tick = flush f := by simp [processStep, hs, hd]
      have h := ih (processStep f Event.tick) (hfl.1.trans hs) (by rw [hstep, flush_eq]; exact hd) hc2
      simp only [List.foldl_cons]
      refine ⟨h.1, ?_⟩
      rw [h.2, hstep, flush_eq]
      simp [itemsOf]
    | recv name =>
      have h := ih (processStep f (Event.recv name)) (hfl.1.trans hs) ?_ hc2
      · simp only [List.foldl_cons]
        refine ⟨h.1, ?_⟩
        rw [h.2]
        simp [processStep, hs, hd, itemsOf]
      · by_cases hfull : bufferSize ≤ f.buffer.length
        · simp [processStep, hs, hd, insert_full f name hfull]
        · simp [processStep, hs, hd, insert_room f name (by omega)]

/-! ## The buffering stage: `insert`, `flush`, `process`, `Stop` -/

/-- C1 (the code does otherwise): when the buffer holds `bufferSize` items,
`insert f x` prints the buffered items in order and leaves the buffer empty; the
new item `x` is not stored, so the buffer is not `[x]`. -/
theorem insert_at_capacity_drops_item (f : Fetcher) (x : String)
    (h : f.buffer.length = bufferSize) :
    (insert f x).stdout = f.stdout ++ f.buffer.map line ∧
      (insert f x).buffer = [] ∧ (insert f x).buffer ≠ [x] := by
  rw [insert_full f x (le_of_eq h.symm)]
  simp

/-- C1, at a full buffer of ten names and an eleventh arriving. -/
theorem insert_at_capacity_drops_item_witness :
    fullFetcher.buffer.length = bufferSize ∧
      (insert fullFetcher "Anakin Skywalker").stdout = tenNames.map line ∧
      (insert fullFetcher "Anakin Skywalker").buffer = [] ∧
      (insert fullFetcher "Anakin Skywalker").buffer ≠ ["Anakin Skywalker"] :=
  ⟨by decide, insert_at_capacity_drops_item fullFetcher "Anakin Skywalker" (by decide)⟩

/-- C2: from the `Fetcher` made by `NewFetcher` and started, after any sequence
of events of the buffering stage the buffer holds at most `bufferSize` items. -/
theorem buffer_bound (evs : List Event) :
    (process (Start NewFetcher) evs).buffer.length ≤ bufferSize :=
  (Inv_process _ evs Inv_init).bound

/-- C3: `flush` on an empty buffer changes nothing; `flush` on any buffer
leaves it empty and adds to the output one line per buffered item, each once, in
the order of the buffer, and touches nothing else. -/
theorem flush_postcondition (f : Fetcher) :
    flush { f with buffer := [] } = { f with buffer := [] } ∧
      flush f = { f with buffer := [], stdout := f.stdout ++ f.buffer.map line } := by
  refine ⟨?_, flush_eq f⟩
  simp [flush]

/-- The state in which the buffering stage returns, after a sequence of item and
ticker events followed by cancellation. -/
theorem after_cancellation (evs : List Event) (hc : Event.ctxDone ∉ evs) :
    (process (Start NewFetcher) (evs ++ [Event.ctxDone])).done = true ∧
      (process (Start NewFetcher) (evs ++ [Event.ctxDone])).buffer = [] ∧
      (process (Start NewFetcher) (evs ++ [Event.ctxDone])).received.map (·.name)
        = itemsOf evs ∧
      (process (Start NewFetcher) (evs ++ [Event.ctxDone])).stdout
        = (appended (process (Start NewFetcher) (evs ++ [Event.ctxDone])).received).map line ∧
      appended (process (Start NewFetcher) (evs ++ [Event.ctxDone])).received
        = keptItems (process (Start NewFetcher) (evs ++ [Event.ctxDone])).received := by
  have hinv := Inv_process _ (evs ++ [Event.ctxDone]) Inv_init
  have hrun := process_running (Start NewFetcher) evs rfl rfl hc
  have hdone : (process (Start NewFetcher) (evs ++ [Event.ctxDone])).done = true := by
    rw [process_append]
    exact processStep_ctxDone_done _ ((process_flags _ evs).1.trans rfl)
  have hrecv : (process (Start NewFetcher) (evs ++ [Event.ctxDone])).received
      = (process (Start NewFetcher) evs).received := by
    rw [process_append]
    show (processStep _ Event.ctxDone).received = _
    unfold processStep
    split
    · rfl
    · simp [flush_eq]
  refine ⟨hdone, hinv.drained hdone, ?_, ?_, hinv.kept⟩
  · rw [hrecv, hrun.2]
    simp [Start, NewFetcher]
  · have h := hinv.written
    rw [hinv.drained hdone] at h
    simpa using h

theorem keptItems_sublist (log : List Receipt) :
    (keptItems log).Sublist (log.map (·.name)) :=
  List.Sublist.map _ (List.filter_sublist _)

theorem process_cancelled_returned (f : Fetcher) (pending : List Event)
    (hs : f.started = true) :
    (process (cancelf f) (pending ++ [Event.ctxDone])).done = true ∧
      (process (cancelf f) (pending ++ [Event.ctxDone])).cancelled = true := by
  constructor
  · rw [process_append]
    exact processStep_ctxDone_done _ ((process_flags _ pending).1.trans hs)
  · exact (process_flags _ _).2.trans rfl

theorem Stop_returned (g : Fetcher) (p : List Event) (hd : g.done = true)
    (hc : g.cancelled = true) : Stop g p = some g := by
  have hcf : cancelf g = g := by
    cases g
    simp_all [cancelf]
  simp [Stop, hcf, process_returned g _ hd, hd]

theorem stopAll_returned (g : Fetcher) (ps : List (List Event)) (hd : g.done = true)
    (hc : g.cancelled = true) : stopAll g ps = some g := by
  induction ps with
  | nil => rfl
  | cons p ps ih => simp [stopAll, Stop_returned g p hd hc, ih]

/-- C4: after any sequence of item and ticker events, once the stage handles
cancellation it closes `done`, the buffer is empty, every item of the sequence
was received, and the output is, in order, one line per item that was appended
to the buffer. -/
theorem flush_completeness (evs : List Event) (hc : Event.ctxDone ∉ evs) :
    (process (Start NewFetcher) (evs ++ [Event.ctxDone])).done = true ∧
      (process (Start NewFetcher) (evs ++ [Event.ctxDone])).buffer = [] ∧
      (process (Start NewFetcher) (evs ++ [Event.ctxDone])).received.map (·.name)
        = itemsOf evs ∧
      (process (Start NewFetcher) (evs ++ [Event.ctxDone])).stdout
        = (appended (process (Start NewFetcher) (evs ++ [Event.ctxDone])).received).map line :=
  have h := after_cancellation evs hc
  ⟨h.1, h.2.1, h.2.2.1, h.2.2.2.1⟩

/-- C4, on two items, a tick and a third item. -/
theorem flush_completeness_witness :
    Event.ctxDone ∉ [Event.recv "Luke", Event.recv "Leia", Event.tick, Event.recv "Han"] ∧
      (process (Start NewFetcher)
        ([Event.recv "Luke", Event.recv "Leia", Event.tick, Event.recv "Han"]
          ++ [Event.ctxDone])).stdout = ["Luke\n", "Leia\n", "Han\n"] :=
  ⟨by decide,
   (flush_completeness [Event.recv "Luke", Event.recv "Leia", Event.tick, Event.recv "Han"]
      (by decide)).2.2.2.trans (by decide)⟩

/-- C10: after any sequence of item and ticker events followed by cancellation,
every item of the sequence was received, the output is one line per item
received while the buffer did not hold `bufferSize` items (so an item is missing
exactly when it arrived at a full buffer), and the output is a sublist of the
lines of the received items. -/
theorem loss_characterisation (evs : List Event) (hc : Event.ctxDone ∉ evs) :
    (process (Start NewFetcher) (evs ++ [Event.ctxDone])).received.map (·.name)
        = itemsOf evs ∧
      (process (Start NewFetcher) (evs ++ [Event.ctxDone])).stdout
        = (keptItems (process (Start NewFetcher) (evs ++ [Event.ctxDone])).received).map line ∧
      ((process (Start NewFetcher) (evs ++ [Event.ctxDone])).stdout).Sublist
        ((itemsOf evs).map line) := by
  have h := after_cancellation evs hc
  have hout : (process (Start NewFetcher) (evs ++ [Event.ctxDone])).stdout
      = (keptItems (process (Start NewFetcher) (evs ++ [Event.ctxDone])).received).map line := by
    rw [← h.2.2.2.2]
    exact h.2.2.2.1
  refine ⟨h.2.2.1, hout, ?_⟩
  rw [hout, ← h.2.2.1]
  exact List.Sublist.map _ (keptItems_sublist _)

/-- C10, on eleven items and no tick: the first ten are printed, the eleventh,
received at a full buffer, is not. -/
theorem loss_characterisation_witness :
    Event.ctxDone ∉ (tenNames ++ ["Anakin Skywalker"]).map Event.recv ∧
      (process (Start NewFetcher)
        ((tenNames ++ ["Anakin Skywalker"]).map Event.recv ++ [Event.ctxDone])).stdout
        = tenNames.map line :=
  ⟨by decide,
   (loss_characterisation ((tenNames ++ ["Anakin Skywalker"]).map Event.recv)
      (by decide)).2.1.trans (by decide)⟩

/-! ## The fetch stage -/

theorem run_append (s : Sys) (xs ys : List Action) :
    run s (xs ++ ys) = run (run s xs) ys := by
  simp [run, List.foldl_append]

theorem run_cons (s : Sys) (a : Action) (sch : List Action) :
    run s (a :: sch) = run (step s a) sch := rfl

theorem run_replicate_succ (s : Sys) (a : Action) (n : Nat) :
    run s (List.replicate (n + 1) a) = step (run s (List.replicate n a)) a := by
  rw [List.replicate_succ', run_append]
  rfl

theorem getResponse_ok_iff (url : String) (t : Transport) (r : Response) :
    getResponse url t = .ok r ↔ t = success r := by
  unfold getResponse success
  cases t with
  | badRequest => simp
  | failed => simp
  | replied status body =>
    by_cases hst : status = StatusOK
    · cases body <;> simp [hst]
    · simp [hst]

theorem getResponse_error (url : String) (t : Transport) (h : ∀ r, t ≠ success r) :
    ∃ e, getResponse url t = .error e := by
  cases hg : getResponse url t with
  | error e => exact ⟨e, rfl⟩
  | ok r => exact absurd ((getResponse_ok_iff url t r).mp hg) (h r)

theorem step_fetch_failure (s : Sys) (url : String) (t : Transport) (ts : List Transport)
    (hp : s.pc = .loop url) (hc : s.f.cancelled = false) (hn : s.net = t :: ts)
    (hf : ∀ r, t ≠ success r) :
    step s .fetch = { s with net := ts, requests := s.requests ++ [url] } := by
  obtain ⟨e, he⟩ := getResponse_error url t hf
  simp [step, fetchStep, hp, hc, hn, he]

theorem step_fetch_success (s : Sys) (url : String) (resp : Response) (ts : List Transport)
    (hp : s.pc = .loop url) (hc : s.f.cancelled = false) (hn : s.net = success resp :: ts) :
    step s .fetch =
      if resp.Results.length = 0 then
        { s with net := ts, requests := s.requests ++ [url], pc := .returned }
      else
        { s with net := ts, requests := s.requests ++ [url],
                 pc := .emit resp.Results resp.Next } := by
  have he : getResponse url (success resp) = .ok resp := (getResponse_ok_iff _ _ _).mpr rfl
  simp only [step, fetchStep, hp, hc, hn, he]
  simp

theorem run_failures (s : Sys) (url : String) (fails rest : List Transport)
    (hp : s.pc = .loop url) (hc : s.f.cancelled = false) (hn : s.net = fails ++ rest)
    (hf : ∀ x ∈ fails, ∀ r, x ≠ success r) :
    run s (List.replicate fails.length .fetch) =
      { s with net := rest, requests := s.requests ++ List.replicate fails.length url } := by
  induction fails generalizing s with
  | nil =>
    cases s
    simp_all [run]
  | cons x xs ih =>
    have hstep := step_fetch_failure s url x (xs ++ rest) hp hc (by simpa using hn)
      (hf x (List.mem_cons_self _ _))
    simp only [List.length_cons, List.replicate_succ, run_cons, hstep]
    rw [ih { s with net := xs ++ rest, requests := s.requests ++ [url] } hp hc rfl
      (fun y hy => hf y (List.mem_cons_of_mem _ hy))]
    simp

theorem processStep_tick_done (f : Fetcher) :
    (processStep f Event.tick).done = f.done ∧
      (processStep f Event.tick).received = f.received := by
  unfold processStep
  split
  · exact ⟨rfl, rfl⟩
  · simp [flush_eq]

theorem processStep_ctxDone_received (f : Fetcher) :
    (processStep f Event.ctxDone).received = f.received := by
  unfold processStep
  split
  · rfl
  · simp [flush_eq]

theorem processStep_recv_running (f : Fetcher) (name : String) (hs : f.started = true)
    (hd : f.done = false) :
    (processStep f (Event.recv name)).done = false ∧
      (processStep f (Event.recv name)).received.map (·.name)
        = f.received.map (·.name) ++ [name] := by
  have h := process_running f [Event.recv name] hs hd (by simp)
  simpa [process, itemsOf] using h

theorem step_idle (s : Sys) (a : Action) (hp : s.pc = .returned)
    (hc : s.f.cancelled = false) (hd : s.f.done = false) (ha : a ≠ .stop) :
    (step s a).pc = .returned ∧ (step s a).f.cancelled = false ∧
      (step s a).f.done = false := by
  cases a with
  | fetch => simp [step, fetchStep, hp, hc, hd]
  | tick =>
    simp only [step, hp]
    exact ⟨rfl, (processStep_flags _ _).2.trans hc, (processStep_tick_done _).1.trans hd⟩
  | ctxDone => simp [step, hp, hc, hd]
  | stop => exact absurd rfl ha

theorem run_idle (s : Sys) (sch : List Action) (hp : s.pc = .returned)
    (hc : s.f.cancelled = false) (hd : s.f.done = false) (hs : Action.stop ∉ sch) :
    (run s sch).pc = .returned ∧ (run s sch).f.cancelled = false ∧
      (run s sch).f.done = false := by
  induction sch generalizing s with
  | nil => exact ⟨hp, hc, hd⟩
  | cons a as ih =>
    have ha : a ≠ .stop := fun h => hs (h ▸ List.mem_cons_self _ _)
    have h := step_idle s a hp hc hd ha
    rw [run_cons]
    exact ih _ h.1 h.2.1 h.2.2 (fun h2 => hs (List.mem_cons_of_mem _ h2))

theorem run_emit (s : Sys) (names : List String) (tail : List (Option Person))
    (next : String)
    (hp : s.pc = .emit (names.map (fun n => some (Person.mk n)) ++ tail) next)
    (hs : s.f.started = true) (hd : s.f.done = false) :
    run s (List.replicate names.length .fetch) =
      { s with f := process s.f (names.map Event.recv), pc := .emit tail next } := by
  induction names generalizing s with
  | nil =>
    cases s
    simp_all [run, process]
  | cons n ns ih =>
    have hstep : step s .fetch =
        { s with f := processStep s.f (.recv n), pc := .emit (ns.map (fun n => some (Person.mk n)) ++ tail) next } := by
      simp [step, fetchStep, hp, hs, hd]
    simp only [List.length_cons, List.replicate_succ, run_cons, hstep]
    rw [ih _ rfl ((processStep_flags _ _).1.trans hs) (processStep_recv_running _ n hs hd).1]
    simp [process]

/-- Once `done` is closed and the context cancelled, no move of the program
changes the `Fetcher`: nothing more is printed. -/
theorem step_frozen (s : Sys) (a : Action) (hd : s.f.done = true)
    (hc : s.f.cancelled = true) : (step s a).f = s.f := by
  have hcf : cancelf s.f = s.f := by
    obtain ⟨f, pc, net, reqs⟩ := s
    cases f
    simp_all [cancelf]
  unfold step
  split
  · rfl
  · cases a with
    | fetch =>
      simp only [fetchStep]
      split <;> (try split) <;> simp_all
    | tick => simp [processStep_returned _ _ hd]
    | ctxDone => simp [processStep_returned _ _ hd]
    | stop => simp [hcf]

theorem run_frozen (s : Sys) (sch : List Action) (hd : s.f.done = true)
    (hc : s.f.cancelled = true) : (run s sch).f = s.f := by
  induction sch generalizing s with
  | nil => rfl
  | cons a as ih =>
    have h := step_frozen s a hd hc
    rw [run_cons, ih _ (by rw [h]; exact hd) (by rw [h]; exact hc), h]

/-- C7: from the top of the loop with the context not cancelled, requests that
fail (anything but a reply with status 200 and a decodable body) change nothing
but the list of requests made, which grows by the same URL each time: nothing is
sent to the buffering stage, the stage does not return and does not cancel.  When
a success follows `k` failures, `k + 1` requests have gone to that URL and the
page is handled as a page is: an empty page ends the stage, any other page is
sent on, item by item. -/
theorem retry_same_page (s : Sys) (url : String) (fails : List Transport)
    (resp : Response) (rest : List Transport)
    (hp : s.pc = .loop url) (hc : s.f.cancelled = false)
    (hn : s.net = fails ++ success resp :: rest)
    (hf : ∀ x ∈ fails, ∀ r, x ≠ success r) :
    run s (List.replicate fails.length .fetch) =
        { s with net := success resp :: rest,
                 requests := s.requests ++ List.replicate fails.length url } ∧
      run s (List.replicate (fails.length + 1) .fetch) =
        if resp.Results.length = 0 then
          { s with net := rest,
                   requests := s.requests ++ List.replicate (fails.length + 1) url,
                   pc := .returned }
        else
          { s with net := rest,
                   requests := s.requests ++ List.replicate (fails.length + 1) url,
                   pc := .emit resp.Results resp.Next } := by
  have h := run_failures s url fails (success resp :: rest) hp hc hn hf
  refine ⟨h, ?_⟩
  rw [run_replicate_succ, h,
    step_fetch_success
      { s with net := success resp :: rest,
               requests := s.requests ++ List.replicate fails.length url }
      url resp rest hp hc rfl]
  simp [List.replicate_succ']

/-- C7, on a status 500, a status 404 and then a success. -/
theorem retry_same_page_witness :
    run (system [.replied 500 .malformed, .replied 404 .unreadable,
          success (page ["Luke"] "")]) (List.replicate 3 .fetch) =
      { system [] with requests := [startURL, startURL, startURL],
                       pc := .emit [some ⟨"Luke"⟩] "" } :=
  (retry_same_page
    (system [.replied 500 .malformed, .replied 404 .unreadable, success (page ["Luke"] "")])
    startURL [.replied 500 .malformed, .replied 404 .unreadable] (page ["Luke"] "") []
    rfl rfl rfl (by simp [success, StatusOK])).2.trans (by decide)

/-- The sibling path: after a successful page with items and the empty cursor
has been sent, the fetch stage calls `Stop`, which cancels the context. -/
theorem last_page_calls_Stop (names : List String) (more : List Transport)
    (hne : names ≠ []) :
    (run (system (success (page names "") :: more))
      (List.replicate (names.length + 2) .fetch)).pc = .stopping ∧
    (run (system (success (page names "") :: more))
      (List.replicate (names.length + 2) .fetch)).f.cancelled = true := by
  have h1 := step_fetch_success (system (success (page names "") :: more))
    startURL (page names "") more rfl rfl rfl
  rw [if_neg (by simpa [page] using hne)] at h1
  rw [run_replicate_succ, List.replicate_succ, run_cons, h1,
    run_emit _ names [] "" (by simp [page]) rfl rfl]
  simp [step, fetchStep, cancelf]

/-- C6 (the code does otherwise): when the first reply is a successful page with
no items, the fetch stage returns without cancelling the context, and as long as
nobody else calls `Stop` the context stays uncancelled and `done` stays open: the
buffering stage never makes its final flush. -/
theorem empty_page_does_not_cancel (next : String) (rest : List Transport)
    (sch : List Action) (h : Action.stop ∉ sch) :
    (run (system (success ⟨next, []⟩ :: rest)) (.fetch :: sch)).pc = .returned ∧
      (run (system (success ⟨next, []⟩ :: rest)) (.fetch :: sch)).f.cancelled = false ∧
      (run (system (success ⟨next, []⟩ :: rest)) (.fetch :: sch)).f.done = false := by
  rw [run_cons, step_fetch_success _ startURL ⟨next, []⟩ rest rfl rfl rfl]
  exact run_idle _ sch rfl rfl rfl h

/-- C6, on an empty page followed by ticks and attempts at the `ctx.Done()` case. -/
theorem empty_page_does_not_cancel_witness :
    Action.stop ∉ [Action.tick, Action.ctxDone, Action.fetch, Action.tick] ∧
      (run (system [success ⟨"", []⟩])
        (.fetch :: [Action.tick, Action.ctxDone, Action.fetch, Action.tick])).f.done = false :=
  ⟨by decide,
   (empty_page_does_not_cancel "" [] [Action.tick, Action.ctxDone, Action.fetch, Action.tick]
      (by decide)).2.2⟩

/-- C9 (the code does otherwise): when the first reply is a successful page
whose results hold a nil entry after `names.length` persons, the fetch stage
sends those names and then panics on the nil entry. -/
theorem nil_entry_panics (names : List String) (rest : List (Option Person))
    (next : String) (more : List Transport) :
    (run (system (success ⟨next, names.map (fun n => some (Person.mk n)) ++ none :: rest⟩ :: more))
      (List.replicate (names.length + 2) .fetch)).pc = .panicked := by
  have h1 := step_fetch_success
    (system (success ⟨next, names.map (fun n => some (Person.mk n)) ++ none :: rest⟩ :: more))
    startURL ⟨next, names.map (fun n => some (Person.mk n)) ++ none :: rest⟩ more rfl rfl rfl
  rw [if_neg (by simp)] at h1
  rw [run_replicate_succ, List.replicate_succ, run_cons, h1,
    run_emit _ names (none :: rest) next rfl rfl rfl]
  simp [step, fetchStep]

/-! ## The pipeline -/

theorem GInv_init (pages : List (List String × String)) (last : List String)
    (hne : ∀ p ∈ pages, p.1 ≠ [] ∧ p.2 ≠ "") :
    GInv last (allNames pages ++ last) (system (serve pages last)) :=
  ⟨Inv_init, rfl, by
    simp only [Feeding, system]
    exact ⟨rfl, rfl, pages, hne, rfl, by simp [Start, NewFetcher]⟩⟩

theorem Feeding_same (last total : List String) (f g : Fetcher) (pc : FetchPc)
    (net : List Transport) (reqs reqs2 : List String)
    (hc : g.cancelled = f.cancelled) (hd : g.done = f.done) (hr : g.received = f.received)
    (h : Feeding last total ⟨f, pc, net, reqs⟩) : Feeding last total ⟨g, pc, net, reqs2⟩ := by
  cases pc <;> simp_all [Feeding]

theorem Feeding_cancelled (last total : List String) (f g : Fetcher) (pc : FetchPc)
    (net : List Transport) (reqs reqs2 : List String)
    (hf : f.cancelled = true) (hc : g.cancelled = true) (hr : g.received = f.received)
    (h : Feeding last total ⟨f, pc, net, reqs⟩) : Feeding last total ⟨g, pc, net, reqs2⟩ := by
  cases pc <;> simp_all [Feeding]

theorem step_GInv_tick (last total : List String) (s : Sys) (h : GInv last total s) :
    GInv last total (step s .tick) := by
  obtain ⟨f, pc, net, reqs⟩ := s
  obtain ⟨hinv, hst, hfeed⟩ := h
  replace hinv : Inv f := hinv
  replace hst : f.started = true := hst
  have hs : step ⟨f, pc, net, reqs⟩ .tick = ⟨processStep f .tick, pc, net, reqs⟩ := by
    cases pc <;> simp_all [step, Feeding]
  rw [hs]
  exact ⟨Inv_processStep f .tick hinv, (processStep_flags f .tick).1.trans hst,
    Feeding_same last total f _ pc net reqs reqs (processStep_flags f _).2
      (processStep_tick_done f).1 (processStep_tick_done f).2 hfeed⟩

theorem step_GInv_ctxDone (last total : List String) (s : Sys) (h : GInv last total s) :
    GInv last total (step s .ctxDone) := by
  obtain ⟨f, pc, net, reqs⟩ := s
  obtain ⟨hinv, hst, hfeed⟩ := h
  replace hinv : Inv f := hinv
  replace hst : f.started = true := hst
  by_cases hc : f.cancelled = true
  · have hs : step ⟨f, pc, net, reqs⟩ .ctxDone = ⟨processStep f .ctxDone, pc, net, reqs⟩ := by
      cases pc <;> simp_all [step, Feeding]
    rw [hs]
    exact ⟨Inv_processStep f .ctxDone hinv, (processStep_flags f .ctxDone).1.trans hst,
      Feeding_cancelled last total f _ pc net reqs reqs hc
        ((processStep_flags f _).2.trans hc) (processStep_ctxDone_received f) hfeed⟩
  · have hs : step ⟨f, pc, net, reqs⟩ .ctxDone = ⟨f, pc, net, reqs⟩ := by
      simp [step, hc]
    rw [hs]
    exact ⟨hinv, hst, hfeed⟩

theorem step_GInv_fetch (last total : List String) (hlast : last ≠ []) (s : Sys)
    (h : GInv last total s) : GInv last total (step s .fetch) := by
  obtain ⟨f, pc, net, reqs⟩ := s
  obtain ⟨hinv, hst, hfeed⟩ := h
  replace hinv : Inv f := hinv
  replace hst : f.started = true := hst
  cases pc with
  | panicked => exact absurd hfeed (by simp [Feeding])
  | loop url =>
    simp only [Feeding] at hfeed
    obtain ⟨hc, hd, ps, hps, hnet, htot⟩ := hfeed
    cases ps with
    | nil =>
      have hs := step_fetch_success ⟨f, .loop url, net, reqs⟩ url (page last "") [] rfl hc
        (by simpa [serve] using hnet)
      rw [if_neg (by simpa [page] using hlast)] at hs
      rw [hs]
      refine ⟨hinv, hst, ?_⟩
      simp only [Feeding]
      refine ⟨hc, hd, last, rfl, Or.inr ⟨?_, ?_, ?_⟩⟩
      · rfl
      · first | rfl | trivial
      · simpa [allNames] using htot
    | cons p ps =>
      have hs := step_fetch_success ⟨f, .loop url, net, reqs⟩ url (page p.1 p.2)
        (serve ps last) rfl hc (by simpa [serve] using hnet)
      have hp := hps p (List.mem_cons_self _ _)
      rw [if_neg (by simpa [page] using hp.1)] at hs
      rw [hs]
      refine ⟨hinv, hst, ?_⟩
      simp only [Feeding]
      exact ⟨hc, hd, p.1, rfl, Or.inl ⟨hp.2, ps,
        fun q hq => hps q (List.mem_cons_of_mem _ hq), rfl,
        by simpa [allNames] using htot⟩⟩
  | emit rest next =>
    simp only [Feeding] at hfeed
    obtain ⟨hc, hd, ns, hrest, hcase⟩ := hfeed
    subst hrest
    cases ns with
    | nil =>
      by_cases hnx : next = ""
      · have hs : step ⟨f, .emit (List.map (fun n => some (Person.mk n)) []) next, net, reqs⟩
            .fetch = ⟨cancelf f, .stopping, net, reqs⟩ := by
          simp [step, fetchStep, hnx]
        rw [hs]
        refine ⟨?_, hst, ?_⟩
        · exact ⟨hinv.bound, hinv.written, hinv.kept, hinv.drained⟩
        · simp only [Feeding]
          rcases hcase with ⟨hne, _⟩ | ⟨_, _, htot⟩
          · exact absurd hnx hne
          · exact ⟨by simp [cancelf], by simpa [cancelf] using htot⟩
      · have hs : step ⟨f, .emit (List.map (fun n => some (Person.mk n)) []) next, net, reqs⟩
            .fetch = ⟨f, .loop next, net, reqs⟩ := by
          simp [step, fetchStep, hnx]
        rw [hs]
        refine ⟨hinv, hst, ?_⟩
        simp only [Feeding]
        rcases hcase with ⟨_, ps, hps, hnet, htot⟩ | ⟨he, _⟩
        · exact ⟨hc, hd, ps, hps, hnet, by simpa using htot⟩
        · exact absurd he hnx
    | cons n ns =>
      have hs : step ⟨f, .emit (List.map (fun n => some (Person.mk n)) (n :: ns)) next, net, reqs⟩
          .fetch = ⟨processStep f (.recv n),
            .emit (List.map (fun n => some (Person.mk n)) ns) next, net, reqs⟩ := by
        simp [step, fetchStep, hst, hd]
      rw [hs]
      have hrun := processStep_recv_running f n hst hd
      refine ⟨Inv_processStep f (.recv n) hinv, (processStep_flags f (.recv n)).1.trans hst, ?_⟩
      simp only [Feeding]
      refine ⟨(processStep_flags f _).2.trans hc, hrun.1, ns, rfl, ?_⟩
      rw [hrun.2]
      rcases hcase with ⟨hne, ps, hps, hnet, htot⟩ | ⟨he, hnet, htot⟩
      · exact Or.inl ⟨hne, ps, hps, hnet, by simpa using htot⟩
      · exact Or.inr ⟨he, hnet, by simpa using htot⟩
  | stopping =>
    simp only [Feeding] at hfeed
    by_cases hd : f.done = true
    · have hs : step ⟨f, .stopping, net, reqs⟩ .fetch = ⟨f, .returned, net, reqs⟩ := by
        simp [step, fetchStep, hd]
      rw [hs]
      exact ⟨hinv, hst, by simpa only [Feeding] using hfeed⟩
    · have hs : step ⟨f, .stopping, net, reqs⟩ .fetch = ⟨f, .stopping, net, reqs⟩ := by
        simp [step, fetchStep, hd]
      rw [hs]
      exact ⟨hinv, hst, by simpa only [Feeding] using hfeed⟩
  | returned =>
    have hs : step ⟨f, .returned, net, reqs⟩ .fetch = ⟨f, .returned, net, reqs⟩ := by
      simp [step, fetchStep]
    rw [hs]
    exact ⟨hinv, hst, hfeed⟩

theorem run_GInv (last total : List String) (hlast : last ≠ []) (s : Sys)
    (sch : List Action) (hs : Action.stop ∉ sch) (h : GInv last total s) :
    GInv last total (run s sch) := by
  induction sch generalizing s with
  | nil => exact h
  | cons a as ih =>
    rw [run_cons]
    refine ih _ (fun h2 => hs (List.mem_cons_of_mem _ h2)) ?_
    cases a with
    | fetch => exact step_GInv_fetch last total hlast s h
    | tick => exact step_GInv_tick last total s h
    | ctxDone => exact step_GInv_ctxDone last total s h
    | stop => exact absurd (List.mem_cons_self _ _) hs

theorem keptItems_all (log : List Receipt)
    (h : ∀ r ∈ log, r.before.length < bufferSize) :
    keptItems log = log.map (·.name) := by
  unfold keptItems
  rw [List.filter_eq_self.mpr]
  intro r hr
  have := h r hr
  simp
  omega

theorem GInv_done (last total : List String) (s : Sys) (h : GInv last total s)
    (hd : s.f.done = true) : s.f.received.map (·.name) = total := by
  obtain ⟨f, pc, net, reqs⟩ := s
  have hf := h.feeding
  cases pc <;> simp_all [Feeding]

theorem process_not_started (f : Fetcher) (evs : List Event) (h : f.started = false) :
    process f evs = f := by
  unfold process
  induction evs with
  | nil => rfl
  | cons e es ih =>
    have hstep : processStep f e = f := by simp [processStep, h]
    simp only [List.foldl_cons, hstep, ih]

/-- On a `Fetcher` that was never started nobody closes `done`: `Stop` blocks. -/
theorem Stop_not_started (p : List Event) : Stop NewFetcher p = none := by
  have h : process (cancelf NewFetcher) (p ++ [Event.ctxDone]) = cancelf NewFetcher :=
    process_not_started _ _ rfl
  unfold Stop
  simp only [h]
  rfl

theorem netCost_append (xs ys : List Transport) :
    netCost (xs ++ ys) = netCost xs + netCost ys := by
  induction xs with
  | nil => simp [netCost]
  | cons x xs ih => simp [netCost, ih, Nat.add_assoc]

theorem netCost_serve_pos (ps : List (List String × String)) (last : List String) :
    0 < netCost (serve ps last) := by
  simp only [serve, netCost_append, netCost, replyCost, success]
  omega

theorem cost_step_process (s : Sys) (a : Action) (ha : a = .tick ∨ a = .ctxDone) :
    cost (step s a) = cost s := by
  unfold step
  split
  · rfl
  · rcases ha with rfl | rfl
    · rfl
    · dsimp only
      split <;> rfl

theorem cost_step_fetch (last total : List String) (s : Sys) (h : GInv last total s) :
    cost (step s .fetch) ≤ cost s - 1 := by
  obtain ⟨f, pc, net, reqs⟩ := s
  obtain ⟨hinv, hst, hfeed⟩ := h
  replace hst : f.started = true := hst
  cases pc with
  | panicked => exact absurd hfeed (by simp [Feeding])
  | loop url =>
    simp only [Feeding] at hfeed
    obtain ⟨hc, hd, ps, hps, hnet, htot⟩ := hfeed
    replace hnet : net = serve ps last := hnet
    subst hnet
    cases ps with
    | nil =>
      have hs := step_fetch_success ⟨f, .loop url, serve [] last, reqs⟩ url (page last "") []
        rfl hc (by simp [serve])
      rw [hs]
      split <;> simp [cost, netCost, replyCost, serve, success, page]
    | cons p ps =>
      have hs := step_fetch_success ⟨f, .loop url, serve (p :: ps) last, reqs⟩ url
        (page p.1 p.2) (serve ps last) rfl hc (by simp [serve])
      rw [hs]
      split <;> simp [cost, netCost, replyCost, serve, success, page]
  | emit rest next =>
    simp only [Feeding] at hfeed
    obtain ⟨hc, hd, ns, hrest, hcase⟩ := hfeed
    subst hrest
    cases ns with
    | nil =>
      by_cases hnx : next = ""
      · have hs : step ⟨f, .emit (List.map (fun n => some (Person.mk n)) []) next, net, reqs⟩
            .fetch = ⟨cancelf f, .stopping, net, reqs⟩ := by
          simp [step, fetchStep, hnx]
        rw [hs]
        simp [cost]
      · have hs : step ⟨f, .emit (List.map (fun n => some (Person.mk n)) []) next, net, reqs⟩
            .fetch = ⟨f, .loop next, net, reqs⟩ := by
          simp [step, fetchStep, hnx]
        rw [hs]
        simp [cost]
    | cons n ns =>
      have hs : step ⟨f, .emit (List.map (fun n => some (Person.mk n)) (n :: ns)) next, net, reqs⟩
          .fetch = ⟨processStep f (.recv n),
            .emit (List.map (fun n => some (Person.mk n)) ns) next, net, reqs⟩ := by
        simp [step, fetchStep, hst, hd]
      rw [hs]
      simp [cost]
  | stopping =>
    have hs : cost (step ⟨f, .stopping, net, reqs⟩ .fetch) = 0 := by
      simp only [step, fetchStep]
      split <;> (try split) <;> simp_all [cost]
    omega
  | returned =>
    have hs : step ⟨f, .returned, net, reqs⟩ .fetch = ⟨f, .returned, net, reqs⟩ := by
      simp [step, fetchStep]
    rw [hs]
    simp [cost]

theorem GInv_not_panicked (last total : List String) (s : Sys) (h : GInv last total s) :
    s.pc ≠ .panicked := by
  intro hp
  have hf := h.feeding
  simp [Feeding, hp] at hf

theorem cost_zero_cancelled (last total : List String) (s : Sys) (h : GInv last total s)
    (hc : cost s = 0) : s.f.cancelled = true := by
  obtain ⟨f, pc, net, reqs⟩ := s
  have hfeed := h.feeding
  cases pc with
  | panicked => exact absurd hfeed (by simp [Feeding])
  | loop url =>
    simp only [Feeding] at hfeed
    obtain ⟨_, _, ps, _, hnet, _⟩ := hfeed
    replace hnet : net = serve ps last := hnet
    subst hnet
    have hpos := netCost_serve_pos ps last
    simp only [cost] at hc
    omega
  | emit rest next =>
    simp only [cost] at hc
    omega
  | stopping =>
    simp only [Feeding] at hfeed
    exact hfeed.1
  | returned =>
    simp only [Feeding] at hfeed
    exact hfeed.1

theorem step_GInv (last total : List String) (hlast : last ≠ []) (s : Sys) (a : Action)
    (ha : a ≠ .stop) (h : GInv last total s) : GInv last total (step s a) := by
  cases a with
  | fetch => exact step_GInv_fetch last total hlast s h
  | tick => exact step_GInv_tick last total s h
  | ctxDone => exact step_GInv_ctxDone last total s h
  | stop => exact absurd rfl ha

/-- Every move of the fetch stage brings it one move nearer to its call of
`Stop`; the moves of the buffering stage do not hold it back. -/
theorem cost_run (last total : List String) (hlast : last ≠ []) (s : Sys)
    (sch : List Action) (hs : Action.stop ∉ sch) (h : GInv last total s) :
    cost (run s sch) ≤ cost s - sch.count .fetch := by
  induction sch generalizing s with
  | nil => simp [run]
  | cons a as ih =>
    have ha : a ≠ .stop := fun e => hs (e ▸ List.mem_cons_self _ _)
    have has : Action.stop ∉ as := fun h2 => hs (List.mem_cons_of_mem _ h2)
    have h1 := ih (step s a) has (step_GInv last total hlast s a ha h)
    rw [run_cons]
    cases a with
    | fetch =>
      have h2 := cost_step_fetch last total s h
      simp only [List.count_cons_self]
      omega
    | tick =>
      have h2 := cost_step_process s .tick (Or.inl rfl)
      rw [List.count_cons_of_ne (by decide)]
      omega
    | ctxDone =>
      have h2 := cost_step_process s .ctxDone (Or.inr rfl)
      rw [List.count_cons_of_ne (by decide)]
      omega
    | stop => exact absurd rfl ha

/-- Once the fetch stage has called `Stop`, the first `ctx.Done()` case the
buffering stage takes closes `done`. -/
theorem run_closes (last total : List String) (hlast : last ≠ []) (s : Sys)
    (sch : List Action) (hs : Action.stop ∉ sch) (h : GInv last total s)
    (hc : cost s = 0) (hx : Action.ctxDone ∈ sch) : (run s sch).f.done = true := by
  induction sch generalizing s with
  | nil => simp at hx
  | cons a as ih =>
    have ha : a ≠ .stop := fun e => hs (e ▸ List.mem_cons_self _ _)
    have has : Action.stop ∉ as := fun h2 => hs (List.mem_cons_of_mem _ h2)
    have hg := step_GInv last total hlast s a ha h
    rw [run_cons]
    cases a with
    | ctxDone =>
      have hcan := cost_zero_cancelled last total s h hc
      have hnp := GInv_not_panicked last total s h
      have hf : (step s .ctxDone).f = processStep s.f .ctxDone := by
        simp [step, hnp, hcan]
      have hd : (step s .ctxDone).f.done = true := by
        rw [hf]
        exact processStep_ctxDone_done _ h.started
      have hcc : (step s .ctxDone).f.cancelled = true := by
        rw [hf]
        exact (processStep_flags _ _).2.trans hcan
      rw [run_frozen _ as hd hcc]
      exact hd
    | tick =>
      have h2 := cost_step_process s .tick (Or.inl rfl)
      exact ih _ has hg (by omega) (by simpa using hx)
    | fetch =>
      have h2 := cost_step_fetch last total s h
      exact ih _ has hg (by omega) (by simpa using hx)
    | stop => exact absurd rfl ha

/-- The output of a run that has ended without an item received at a full
buffer. -/
theorem ended_output (last total : List String) (s : Sys) (h : GInv last total s)
    (hend : s.f.done = true) (hcap : ∀ r ∈ s.f.received, r.before.length < bufferSize) :
    s.f.stdout = total.map line := by
  have hrecv := GInv_done _ _ _ h hend
  have hw := h.inv.written
  rw [h.inv.drained hend, h.inv.kept, keptItems_all _ hcap, hrecv] at hw
  simpa using hw

theorem step_fetch_f (s : Sys) :
    (step s .fetch).f = s.f ∨ (step s .fetch).f = cancelf s.f ∨
      ∃ n, (step s .fetch).f = processStep s.f (.recv n) := by
  obtain ⟨f, pc, net, reqs⟩ := s
  cases pc with
  | panicked => exact Or.inl (by simp [step])
  | returned => exact Or.inl (by simp [step, fetchStep])
  | stopping =>
    refine Or.inl ?_
    simp only [step, fetchStep]
    split <;> (try split) <;> simp_all
  | loop url =>
    refine Or.inl ?_
    simp only [step, fetchStep]
    repeat' split
    all_goals simp_all
  | emit rest next =>
    cases rest with
    | nil =>
      by_cases hnx : next = ""
      · exact Or.inr (Or.inl (by simp [step, fetchStep, hnx]))
      · exact Or.inl (by simp [step, fetchStep, hnx])
    | cons r rest =>
      cases r with
      | none => exact Or.inl (by simp [step, fetchStep])
      | some res =>
        by_cases hg : f.started = false ∨ f.done = true
        · exact Or.inl (by simp [step, fetchStep, hg])
        · exact Or.inr (Or.inr ⟨res.Name, by simp [step, fetchStep, hg]⟩)

theorem processStep_recv_received (f : Fetcher) (n : String) :
    ∀ r ∈ (processStep f (.recv n)).received, r ∈ f.received ∨ r.before = f.buffer := by
  intro r hr
  unfold processStep at hr
  split at hr
  · exact Or.inl hr
  · simp only [List.mem_append, List.mem_singleton] at hr
    rcases hr with hr | hr
    · exact Or.inl hr
    · exact Or.inr (by rw [hr])

theorem step_fetch_received (s : Sys) :
    ∀ r ∈ (step s .fetch).f.received, r ∈ s.f.received ∨ r.before = s.f.buffer := by
  intro r hr
  rcases step_fetch_f s with h | h | ⟨n, h⟩
  · rw [h] at hr
    exact Or.inl hr
  · rw [h] at hr
    exact Or.inl hr
  · rw [h] at hr
    exact processStep_recv_received s.f n r hr

theorem step_tick_flushed (last total : List String) (s : Sys) (h : GInv last total s) :
    (step s .tick).f.buffer = [] ∧ (step s .tick).f.received = s.f.received := by
  have hnp := GInv_not_panicked last total s h
  have hf : (step s .tick).f = processStep s.f .tick := by simp [step, hnp]
  rw [hf]
  refine ⟨?_, (processStep_tick_done s.f).2⟩
  by_cases hd : s.f.done = true
  · rw [processStep_returned _ _ hd]
    exact h.inv.drained hd
  · simp [processStep, h.started, hd, flush_eq]

theorem ticked_properties (n : Nat) :
    Action.stop ∉ ticked n ∧ (ticked n).count .fetch = n := by
  induction n with
  | zero => simp [ticked]
  | succ n ih =>
    refine ⟨?_, ?_⟩
    · simp [ticked, ih.1]
    · simp [ticked, ih.2]

/-- When the ticker fires before each move of the fetch stage every item is
received at an empty buffer. -/
theorem run_ticked_received (last total : List String) (hlast : last ≠ []) (n : Nat)
    (s : Sys) (h : GInv last total s) :
    ∀ r ∈ (run s (ticked n)).f.received, r ∈ s.f.received ∨ r.before = [] := by
  induction n generalizing s with
  | zero =>
    intro r hr
    exact Or.inl hr
  | succ n ih =>
    intro r hr
    have h1 := step_GInv_tick last total s h
    have h2 := step_GInv_fetch last total hlast _ h1
    have ht := step_tick_flushed last total s h
    simp only [ticked, run_cons] at hr
    rcases ih _ h2 r hr with hr2 | hr2
    · rcases step_fetch_received _ r hr2 with hr3 | hr3
      · rw [ht.2] at hr3
        exact Or.inl hr3
      · rw [ht.1] at hr3
        exact Or.inr hr3
    · exact Or.inr hr2

/-- For every list of pages there is a run that ends with no item received at a
full buffer and with the full output: the ticker fires before each move of the
fetch stage, then the buffering stage takes its `ctx.Done()` case. -/
theorem complete_run (pages : List (List String × String)) (last : List String)
    (hne : ∀ p ∈ pages, p.1 ≠ [] ∧ p.2 ≠ "") (hlast : last ≠ []) :
    Action.stop ∉ ticked (cost (system (serve pages last))) ++ [Action.ctxDone] ∧
      (run (system (serve pages last))
        (ticked (cost (system (serve pages last))) ++ [Action.ctxDone])).f.done = true ∧
      (∀ r ∈ (run (system (serve pages last))
          (ticked (cost (system (serve pages last))) ++ [Action.ctxDone])).f.received,
        r.before.length < bufferSize) ∧
      (run (system (serve pages last))
        (ticked (cost (system (serve pages last))) ++ [Action.ctxDone])).f.stdout
        = (allNames pages ++ last).map line := by
  have h0 := GInv_init pages last hne
  have htk := ticked_properties (cost (system (serve pages last)))
  have hns : Action.stop ∉ ticked (cost (system (serve pages last))) ++ [Action.ctxDone] := by
    simp [htk.1]
  have h1 := run_GInv last _ hlast _ _ htk.1 h0
  have hc := cost_run last _ hlast _ _ htk.1 h0
  rw [htk.2] at hc
  have hend : (run (system (serve pages last))
      (ticked (cost (system (serve pages last))) ++ [Action.ctxDone])).f.done = true := by
    rw [run_append]
    exact run_closes last _ hlast _ _ (by simp) h1 (by omega) (by simp)
  have hcap : ∀ r ∈ (run (system (serve pages last))
      (ticked (cost (system (serve pages last))) ++ [Action.ctxDone])).f.received,
      r.before.length < bufferSize := by
    intro r hr
    rw [run_append] at hr
    have hnp := GInv_not_panicked last _ _ h1
    have hcan := cost_zero_cancelled last _ _ h1 (by omega)
    have hf : (run (run (system (serve pages last))
        (ticked (cost (system (serve pages last))))) [Action.ctxDone]).f.received
        = (run (system (serve pages last))
            (ticked (cost (system (serve pages last))))).f.received := by
      show (step _ Action.ctxDone).f.received = _
      simp [step, hnp, hcan, processStep_ctxDone_received]
    rw [hf] at hr
    rcases run_ticked_received last _ hlast _ _ h0 r hr with h2 | h2
    · simp [system, Start, NewFetcher] at h2
    · rw [h2]
      decide
  exact ⟨hns, hend, hcap,
    ended_output last _ _ (run_GInv last _ hlast _ _ hns h0) hend hcap⟩

/-- C5: for pages with items served one after the other, the last one alone
having the empty cursor, and for any schedule of the two goroutines and the
ticker in which nobody else calls `Stop` and no item is received at a full
buffer.  First, if the run has ended (`done` is closed) the output is one line
per item, page after page, in the order of the pages.  Second, the run does end,
with that output, whenever the schedule gives the fetch stage the moves it needs
(one per request, one per item, one per end of page: `cost`) and afterwards
gives the buffering stage its `ctx.Done()` case. -/
theorem order_preservation (pages : List (List String × String)) (last : List String)
    (sch : List Action)
    (hne : ∀ p ∈ pages, p.1 ≠ [] ∧ p.2 ≠ "") (hlast : last ≠ [])
    (hstop : Action.stop ∉ sch)
    (hcap : ∀ r ∈ (run (system (serve pages last)) sch).f.received,
      r.before.length < bufferSize) :
    ((run (system (serve pages last)) sch).f.done = true →
        (run (system (serve pages last)) sch).f.stdout
          = (allNames pages ++ last).map line) ∧
      ∀ sch1 sch2 : List Action, sch = sch1 ++ sch2 →
        cost (system (serve pages last)) ≤ sch1.count .fetch →
        Action.ctxDone ∈ sch2 →
        (run (system (serve pages last)) sch).f.done = true ∧
          (run (system (serve pages last)) sch).f.stdout
            = (allNames pages ++ last).map line := by
  have h0 := GInv_init pages last hne
  have h := run_GInv last (allNames pages ++ last) hlast _ sch hstop h0
  refine ⟨fun hend => ended_output last _ _ h hend hcap, ?_⟩
  intro sch1 sch2 hsplit hfetch hctx
  subst hsplit
  have hs1 : Action.stop ∉ sch1 := fun hm => hstop (List.mem_append_left _ hm)
  have hs2 : Action.stop ∉ sch2 := fun hm => hstop (List.mem_append_right _ hm)
  have h1 := run_GInv last (allNames pages ++ last) hlast _ sch1 hs1 h0
  have hc := cost_run last _ hlast _ sch1 hs1 h0
  have hend : (run (system (serve pages last)) (sch1 ++ sch2)).f.done = true := by
    rw [run_append]
    exact run_closes last _ hlast _ sch2 hs2 h1 (by omega) hctx
  exact ⟨hend, ended_output last _ _ h hend hcap⟩

/-- C5, on the pages `Luke, Leia` and `Han`, with a tick between the pages: the
fetch stage makes its seven moves, then the buffering stage takes its
`ctx.Done()` case. -/
theorem order_preservation_witness :
    (run (system (serve [(["Luke", "Leia"], "page2")] ["Han"]))
      [.fetch, .fetch, .fetch, .tick, .fetch, .fetch, .fetch, .fetch, .ctxDone,
       .fetch]).f.done = true ∧
    (run (system (serve [(["Luke", "Leia"], "page2")] ["Han"]))
      [.fetch, .fetch, .fetch, .tick, .fetch, .fetch, .fetch, .fetch, .ctxDone,
       .fetch]).f.stdout = ["Luke\n", "Leia\n", "Han\n"] :=
  (order_preservation [(["Luke", "Leia"], "page2")] ["Han"]
    [.fetch, .fetch, .fetch, .tick, .fetch, .fetch, .fetch, .fetch, .ctxDone, .fetch]
    (by decide) (by decide) (by decide) (by decide)).2
    [.fetch, .fetch, .fetch, .tick, .fetch, .fetch, .fetch, .fetch] [.ctxDone, .fetch]
    rfl (by decide) (by decide)

theorem Inv_cancelf (f : Fetcher) (h : Inv f) : Inv (cancelf f) :=
  ⟨h.bound, h.written, h.kept, h.drained⟩

/-- What the buffering stage has done when the caller of `Stop` is released:
the buffer is empty and what it held when the stage took its `ctx.Done()` case
has been printed after everything printed before. -/
theorem Stop_flushes (f : Fetcher) (p : List Event) (hs : f.started = true) (hi : Inv f) :
    (process (cancelf f) (p ++ [Event.ctxDone])).buffer = [] ∧
      (process (cancelf f) (p ++ [Event.ctxDone])).stdout
        = (process (cancelf f) p).stdout ++ (process (cancelf f) p).buffer.map line ∧
      (process (cancelf f) (p ++ [Event.ctxDone])).stdout
        = (appended (process (cancelf f) (p ++ [Event.ctxDone])).received).map line := by
  have hinv := Inv_process _ (p ++ [Event.ctxDone]) (Inv_cancelf f hi)
  have hmid := Inv_process _ p (Inv_cancelf f hi)
  have hdone := (process_cancelled_returned f p hs).1
  have hbuf := hinv.drained hdone
  have hst : (process (cancelf f) p).started = true := (process_flags _ p).1.trans hs
  refine ⟨hbuf, ?_, ?_⟩
  · rw [process_append]
    show (processStep (process (cancelf f) p) Event.ctxDone).stdout = _
    by_cases hd : (process (cancelf f) p).done = true
    · rw [processStep_returned _ _ hd, hmid.drained hd]
      simp
    · simp [processStep, hst, hd, flush_eq]
  · have hw := hinv.written
    rw [hbuf] at hw
    simpa using hw

/-- C8: on the `Fetcher` made by `NewFetcher` and started, after any events of
the buffering stage, and whatever the stage still has to handle during each
call: one call of `Stop` returns, with the context cancelled and `done` closed;
the final flush has been made by then (the buffer is empty, what it held when the
stage took its `ctx.Done()` case has been printed after everything printed
before, and the output is one line per item ever appended to the buffer); any
number of further calls all return and leave the state, the output included,
exactly as the first call left it; and from then on no move of the program
(another `cancelf`, a tick, a move of the fetch stage) changes the `Fetcher`, so
nothing is flushed a second time. -/
theorem stop_idempotent (evs p : List Event) (ps : List (List Event)) :
    ∃ g, Stop (process (Start NewFetcher) evs) p = some g ∧
      stopAll (process (Start NewFetcher) evs) (p :: ps) = some g ∧
      g.cancelled = true ∧ g.done = true ∧ g.buffer = [] ∧
      g.stdout = (process (cancelf (process (Start NewFetcher) evs)) p).stdout ++
        (process (cancelf (process (Start NewFetcher) evs)) p).buffer.map line ∧
      g.stdout = (appended g.received).map line ∧
      ∀ (pc : FetchPc) (net : List Transport) (reqs : List String) (sch : List Action),
        (run ⟨g, pc, net, reqs⟩ sch).f = g := by
  have hs : (process (Start NewFetcher) evs).started = true := (process_flags _ evs).1.trans rfl
  have hi : Inv (process (Start NewFetcher) evs) := Inv_process _ evs Inv_init
  have h := process_cancelled_returned (process (Start NewFetcher) evs) p hs
  have hf := Stop_flushes (process (Start NewFetcher) evs) p hs hi
  refine ⟨process (cancelf (process (Start NewFetcher) evs)) (p ++ [Event.ctxDone]),
    ?_, ?_, h.2, h.1, hf.1, hf.2.1, hf.2.2, ?_⟩
  · simp [Stop, h.1]
  · simp [stopAll, Stop, h.1, stopAll_returned _ ps h.1 h.2]
  · intro pc net reqs sch
    exact run_frozen ⟨_, pc, net, reqs⟩ sch h.1 h.2

/-- Two items buffered, a third arriving during the first of three calls of
`Stop`: all three calls return and the three names have been printed once. -/
theorem Stop_three_times :
    (stopAll (process (Start NewFetcher) [Event.recv "Luke", Event.recv "Leia"])
      [[Event.recv "Han"], [Event.tick], []]).map (fun g => (g.buffer, g.stdout, g.done))
      = some ([], ["Luke\n", "Leia\n", "Han\n"], true) := by
  decide

end Starwars
